import Mathlib

/-!
# Verification of the eBird NY rare-bird scraper pipeline

Shallow embedding of `scripts/scrape.py`: the observation aggregator
(`process_observations`), the Wikipedia name cleaner (`clean_bird_name`),
the image lookup (`fetch_bird_image`, network abstracted as an oracle),
and the `main` pipeline (fetch result abstracted as an `Except`).
-/

namespace Scrape

/-! ## Python string order (code-point lexicographic), as used by `sorted` keys -/

/-- Lexicographic `≤` on char lists by code point, Python's string `<=`. -/
def strLeL : List Char → List Char → Bool
  | [], _ => true
  | _ :: _, [] => false
  | a :: as, b :: bs => if a = b then strLeL as bs else decide (a.toNat < b.toNat)

/-- Python string `<=` (code-point lexicographic). -/
def strLe (a b : String) : Bool := strLeL a.data b.data

/-! ## Data model

A raw observation record from the eBird API: every field may be absent
(`obs.get` in the source supplies the defaults). -/

structure RawObs where
  speciesCode : Option String
  comName : Option String
  sciName : Option String
  locName : Option String
  obsDt : Option String
  howMany : Option Nat
  lat : Option Int
  lng : Option Int
  subId : Option String
  userDisplayName : Option String
deriving DecidableEq, Repr

/-- A normalized per-sighting record, as appended to
`species_data[code]["observations"]` (scrape.py lines 119–127). -/
structure ObsRec where
  locName : String
  obsDt : String
  howMany : Nat
  lat : Option Int
  lng : Option Int
  subId : String
  userDisplayName : String
deriving DecidableEq, Repr

/-- A species group dict. `totalObservations`, `rarityRank` and `imageUrl`
are added by later phases; before that they hold the defaults. -/
structure SpeciesGroup where
  comName : String
  sciName : String
  speciesCode : String
  observations : List ObsRec
  totalObservations : Nat := 0
  rarityRank : Nat := 0
  imageUrl : Option (Option String) := none
deriving DecidableEq, Repr

/-! ## The aggregator (`process_observations`, scrape.py lines 96–145) -/

/-- The accumulation state: the insertion-ordered `species_data` dict
(association list keyed by species code) and the `seen_obs` set. -/
structure AggSt where
  speciesData : List (String × SpeciesGroup)
  seen : List (String × String)
deriving DecidableEq, Repr

/-- Fresh group entry created on first sight of a species (lines 111–117). -/
def newGroup (obs : RawObs) (sc : String) : SpeciesGroup :=
  { comName := obs.comName.getD "Unknown"
    sciName := obs.sciName.getD ""
    speciesCode := sc
    observations := [] }

/-- The normalized record appended for a retained observation (lines 119–127). -/
def mkRec (obs : RawObs) (sid : String) : ObsRec :=
  { locName := obs.locName.getD "Unknown location"
    obsDt := obs.obsDt.getD ""
    howMany := obs.howMany.getD 1
    lat := obs.lat
    lng := obs.lng
    subId := sid
    userDisplayName := obs.userDisplayName.getD "Anonymous" }

/-- Update applied to one dict entry: append `r` when the key matches. -/
def updEntry (sc : String) (r : ObsRec) (p : String × SpeciesGroup) :
    String × SpeciesGroup :=
  if p.1 = sc then (p.1, { p.2 with observations := p.2.observations ++ [r] }) else p

/-- Append `r` to the observation list of the entry keyed `sc`
(the dict update `species_data[species_code]["observations"].append(...)`). -/
def addObs (sc : String) (r : ObsRec) (data : List (String × SpeciesGroup)) :
    List (String × SpeciesGroup) :=
  data.map (updEntry sc r)

/-- One iteration of the main loop (lines 101–127): dedup by
`(speciesCode, subId)`, create the group on first sight, append the record. -/
def step (st : AggSt) (obs : RawObs) : AggSt :=
  let sc := obs.speciesCode.getD "unknown"
  let sid := obs.subId.getD ""
  if (sc, sid) ∈ st.seen then st
  else
    let data1 := if st.speciesData.any (fun p => p.1 = sc) then st.speciesData
                 else st.speciesData ++ [(sc, newGroup obs sc)]
    { speciesData := addObs sc (mkRec obs sid) data1
      seen := (sc, sid) :: st.seen }

/-- Descending order on observation date strings, the key of the inner
`sorted(..., key=lambda x: x["obsDt"], reverse=True)` call. -/
def leObsDt (a b : ObsRec) : Prop := strLe b.obsDt a.obsDt = true

instance : DecidableRel leObsDt := fun a b => inferInstanceAs (Decidable (_ = true))

/-- Ascending order on `(totalObservations, comName)`, the key of the outer
`sorted(..., key=lambda x: (x["totalObservations"], x["comName"]))` call. -/
def leKey (a b : SpeciesGroup) : Prop :=
  a.totalObservations < b.totalObservations ∨
    (a.totalObservations = b.totalObservations ∧ strLe a.comName b.comName = true)

instance : DecidableRel leKey := fun a b => inferInstanceAs (Decidable (_ ∨ _))

/-- Phase 2 for one group (lines 130–136): sort observations by date
descending, set `totalObservations` to the list length. -/
def finishGroup (g : SpeciesGroup) : SpeciesGroup :=
  let sortedObs := List.insertionSort leObsDt g.observations
  { g with observations := sortedObs, totalObservations := sortedObs.length }

/-- Phase 4 (lines 142–143): assign `rarityRank = i + 1` by position. -/
def addRanks : Nat → List SpeciesGroup → List SpeciesGroup
  | _, [] => []
  | i, g :: t => { g with rarityRank := i + 1 } :: addRanks (i + 1) t

/-- `process_observations` (lines 96–145): fold the dedup/group loop,
finish every group, sort by rarity key, assign ranks. -/
def process_observations (observations : List RawObs) : List SpeciesGroup :=
  let st := observations.foldl step { speciesData := [], seen := [] }
  let groups := (st.speciesData.map (fun p => finishGroup p.2))
  addRanks 0 (List.insertionSort leKey groups)

/-! ## The name cleaner (`clean_bird_name`, scrape.py lines 25–33)

`re.sub(r'\s*\([^)]*\)\s*', ' ', name)` is modeled by a left-to-right scan:
at each position try to match the pattern (greedy whitespace, `(`, run of
non-`)` characters, `)`, greedy whitespace); on a match emit one space and
resume after it, otherwise keep the character and move one position right. -/

/-- Python `\s` on the ASCII range (`re` whitespace class). -/
def pySpace (c : Char) : Bool :=
  c = ' ' || c = '\t' || c = '\n' || c = '\r' || c = '\x0b' || c = '\x0c'

/-- Characters allowed inside the parentheses, i.e. `[^)]`. -/
def notClose (c : Char) : Bool := !(c = ')')

/-- Try to match `\s*\([^)]*\)\s*` at the head of `l`; on success return the
remainder of the string after the match. -/
def matchAt (l : List Char) : Option (List Char) :=
  match l.dropWhile pySpace with
  | '(' :: r =>
    match r.dropWhile notClose with
    | ')' :: r2 => some (r2.dropWhile pySpace)
    | _ => none
  | _ => none

/-- Fuel-indexed scan for `re.sub`; fuel `l.length` always suffices since a
match consumes at least two characters. -/
def goSub : Nat → List Char → List Char
  | _, [] => []
  | 0, l => l
  | n + 1, c :: t =>
    match matchAt (c :: t) with
    | some rest => ' ' :: goSub n rest
    | none => c :: goSub n t

/-- `re.sub(r'\s*\([^)]*\)\s*', ' ', ·)` on a character list. -/
def subParens (l : List Char) : List Char := goSub l.length l

/-- Python `str.strip()`: drop whitespace from both ends. -/
def pyStrip (l : List Char) : List Char :=
  ((l.dropWhile pySpace).reverse.dropWhile pySpace).reverse

/-- The hybrid separator `" x "`. -/
def sepX : List Char := [' ', 'x', ' ']

/-- Python substring test `sep in l` (for a fixed non-empty `sep`). -/
def containsSub (sep : List Char) : List Char → Bool
  | [] => sep.isEmpty
  | c :: t => sep.isPrefixOf (c :: t) || containsSub sep t

/-- Python `l.split(sep)[0]`: the part before the first occurrence of `sep`. -/
def beforeFirst (sep : List Char) : List Char → List Char
  | [] => []
  | c :: t => if sep.isPrefixOf (c :: t) then [] else c :: beforeFirst sep t

/-- No `(` in `l` is ever followed by a `)`: on such strings the parenthesis
pattern of the cleaner cannot match anywhere. -/
def noPairs : List Char → Bool
  | [] => true
  | c :: t => (!(c = '(') || !(decide (')' ∈ t))) && noPairs t

/-- `clean_bird_name` on a character list: strip the parenthesized segments,
strip whitespace, and keep only the part before the first `" x "`. -/
def clean_bird_name_l (l : List Char) : List Char :=
  let t := pyStrip (subParens l)
  if containsSub sepX t then pyStrip (beforeFirst sepX t) else t

/-- `clean_bird_name` (scrape.py lines 25–33). -/
def clean_bird_name (s : String) : String := String.mk (clean_bird_name_l s.data)

/-! ## The image lookup (`fetch_bird_image`, scrape.py lines 36–76)

The network is abstracted as an oracle `query : String → Except Unit
(List (Option String))`: for a requested page title it either raises
(timeout, network error, malformed JSON — `.error`) or returns the pages of
the response, each carrying an optional thumbnail source URL. -/

/-- `for page in pages.values(): if "thumbnail" in page: return ...source` —
the first page that has a thumbnail. -/
def findThumb (pages : List (Option String)) : Option String :=
  pages.findSome? id

/-- The body of the `try:` block: first query with the cleaned name, then
retry with the `" (bird)"` suffix; an `.error` models a raised exception. -/
def fetchBody (query : String → Except Unit (List (Option String)))
    (bird_name : String) : Except Unit (Option String) :=
  match query (clean_bird_name bird_name) with
  | .error e => .error e
  | .ok pages =>
    match findThumb pages with
    | some url => .ok (some url)
    | none =>
      match query (clean_bird_name bird_name ++ " (bird)") with
      | .error e => .error e
      | .ok pages2 =>
        match findThumb pages2 with
        | some url => .ok (some url)
        | none => .ok none

/-- `fetch_bird_image`: the `try/except Exception: pass` wrapper turns any
raised error into the fall-through `return None`. -/
def fetch_bird_image (query : String → Except Unit (List (Option String)))
    (bird_name : String) : Option String :=
  match fetchBody query bird_name with
  | .ok r => r
  | .error _ => none

/-! ## The main pipeline (`main`, scrape.py lines 148–192) -/

/-- The image-enrichment loop `for i, species in enumerate(processed_data[:30])`:
the first `n` groups get an `imageUrl` field (present, possibly null). -/
def attachTop (n : Nat) (fetchImg : String → Option String) :
    List SpeciesGroup → List SpeciesGroup :=
  fun gs =>
    match n, gs with
    | _, [] => []
    | 0, gs => gs
    | n + 1, g :: t => { g with imageUrl := some (fetchImg g.comName) } :: attachTop n fetchImg t

/-- Image enrichment of the top 30 rarest species (scrape.py lines 159–168). -/
def attach_images (fetchImg : String → Option String) (gs : List SpeciesGroup) :
    List SpeciesGroup :=
  attachTop 30 fetchImg gs

/-- The snapshot envelope written to `data/birds.json` (lines 170–178). -/
structure Snapshot where
  lastUpdated : String
  region : String
  regionCode : String
  daysBack : Nat
  totalSpecies : Nat
  totalObservations : Nat
  species : List SpeciesGroup
deriving DecidableEq, Repr

/-- `main` with the fetch result and image lookup abstracted as oracles and
the filesystem as a before/after pair: returns the propagated result and the
state of the output file after the run. On a fetch error the `except` clause
re-raises and the file write (which happens later in the `try:` body) never
runs, so the previous file content is returned untouched. -/
def run_main (fetchResult : Except String (List RawObs))
    (fetchImg : String → Option String) (now : String)
    (prevFile : Option Snapshot) : Except String Snapshot × Option Snapshot :=
  match fetchResult with
  | .error e => (.error e, prevFile)
  | .ok raw =>
    let processed := process_observations raw
    let total_obs := (processed.map (fun s => s.totalObservations)).sum
    let enriched := attach_images fetchImg processed
    let output : Snapshot :=
      { lastUpdated := now
        region := "New York"
        regionCode := "US-NY"
        daysBack := 7
        totalSpecies := processed.length
        totalObservations := total_obs
        species := enriched }
    (.ok output, some output)

/-! ## Reconstruction of raw observations from processed groups (for the
idempotence property of the Aggregator) -/

/-- A retained observation, as a raw record again, carrying its group's
species metadata. -/
def toRaw (g : SpeciesGroup) (o : ObsRec) : RawObs :=
  { speciesCode := some g.speciesCode
    comName := some g.comName
    sciName := some g.sciName
    locName := some o.locName
    obsDt := some o.obsDt
    howMany := some o.howMany
    lat := o.lat
    lng := o.lng
    subId := some o.subId
    userDisplayName := some o.userDisplayName }

/-- All retained observations of a processed output, in group order. -/
def flattenGroups (gs : List SpeciesGroup) : List RawObs :=
  gs.flatMap (fun g => g.observations.map (toRaw g))

/-- The `species_data` entry the dedup loop rebuilds for a group whose
observations are re-fed through the Aggregator. -/
def entryOf (g : SpeciesGroup) : String × SpeciesGroup :=
  (g.speciesCode,
    { comName := g.comName
      sciName := g.sciName
      speciesCode := g.speciesCode
      observations := g.observations })

/-! ## Sample inputs for concrete end-to-end scenarios -/

/-- A fully-populated raw observation. -/
def sampleRaw (sc cn dt sid : String) : RawObs :=
  { speciesCode := some sc
    comName := some cn
    sciName := some "Sci"
    locName := some "Loc"
    obsDt := some dt
    howMany := some 1
    lat := none
    lng := none
    subId := some sid
    userDisplayName := some "User" }

/-- A raw observation missing its checklist identifier (`subId`). -/
def sampleRawNoSub (sc cn dt loc : String) : RawObs :=
  { speciesCode := some sc
    comName := some cn
    sciName := some "Sci"
    locName := some loc
    obsDt := some dt
    howMany := some 1
    lat := none
    lng := none
    subId := none
    userDisplayName := some "User" }

/-! ## Invariants of the accumulation state -/

/-- Invariant maintained by the dedup/group loop. -/
structure Inv (st : AggSt) : Prop where
  keysNodup : (st.speciesData.map Prod.fst).Nodup
  codeEq : ∀ p ∈ st.speciesData, p.2.speciesCode = p.1
  defaults : ∀ p ∈ st.speciesData,
    p.2.totalObservations = 0 ∧ p.2.rarityRank = 0 ∧ p.2.imageUrl = none
  inSeen : ∀ p ∈ st.speciesData, ∀ o ∈ p.2.observations, (p.1, o.subId) ∈ st.seen
  subNodup : ∀ p ∈ st.speciesData, (p.2.observations.map (fun o => o.subId)).Nodup
  nonNil : ∀ p ∈ st.speciesData, p.2.observations ≠ []

/-! # Theorems -/

/-! ## Order lemmas for the two sort keys -/

theorem strLeL_refl : ∀ a : List Char, strLeL a a = true
  | [] => rfl
  | a :: as => by simp [strLeL, strLeL_refl as]

theorem charToNat_inj {a b : Char} (h : a.toNat = b.toNat) : a = b := by
  apply Char.eq_of_val_eq
  have : a.val.toNat = b.val.toNat := h
  exact UInt32.toNat.inj this

theorem strLeL_total : ∀ a b : List Char, strLeL a b = true ∨ strLeL b a = true
  | [], _ => Or.inl rfl
  | _ :: _, [] => Or.inr rfl
  | a :: as, b :: bs => by
    by_cases hab : a = b
    · subst hab
      simpa [strLeL] using strLeL_total as bs
    · rcases Nat.lt_or_ge a.toNat b.toNat with h | h
      · exact Or.inl (by simp [strLeL, hab, h])
      · have hne : b.toNat ≠ a.toNat := fun hv => hab (charToNat_inj hv).symm
        have hba : b ≠ a := fun hh => hab hh.symm
        exact Or.inr (by simp [strLeL, hba, Nat.lt_of_le_of_ne h hne])

theorem strLeL_trans : ∀ a b c : List Char,
    strLeL a b = true → strLeL b c = true → strLeL a c = true
  | [], _, _, _, _ => rfl
  | _ :: _, [], _, h, _ => by simp [strLeL] at h
  | _ :: _, _ :: _, [], _, h => by simp [strLeL] at h
  | a :: as, b :: bs, c :: cs, h1, h2 => by
    by_cases hab : a = b
    · subst hab
      by_cases hac : a = c
      · subst hac
        simp only [strLeL, if_pos rfl] at h1 h2 ⊢
        exact strLeL_trans as bs cs h1 h2
      · simpa [strLeL, hac] using h2
    · have h1' : a.toNat < b.toNat := by simpa [strLeL, hab] using h1
      by_cases hbc : b = c
      · subst hbc
        simpa [strLeL, hab] using h1
      · have h2' : b.toNat < c.toNat := by simpa [strLeL, hbc] using h2
        have hlt : a.toNat < c.toNat := Nat.lt_trans h1' h2'
        have hac : a ≠ c := by
          intro hh; subst hh; exact Nat.lt_irrefl _ hlt
        simp [strLeL, hac, hlt]

theorem strLe_refl (a : String) : strLe a a = true := strLeL_refl a.data

theorem strLe_total (a b : String) : strLe a b = true ∨ strLe b a = true :=
  strLeL_total a.data b.data

theorem strLe_trans {a b c : String} :
    strLe a b = true → strLe b c = true → strLe a c = true :=
  strLeL_trans a.data b.data c.data

instance : IsTotal ObsRec leObsDt :=
  ⟨fun a b => (strLe_total b.obsDt a.obsDt).imp (fun h => h) (fun h => h)⟩

instance : IsTrans ObsRec leObsDt :=
  ⟨fun _ _ _ hab hbc => strLe_trans hbc hab⟩

instance : IsTotal SpeciesGroup leKey := by
  constructor
  intro a b
  rcases Nat.lt_trichotomy a.totalObservations b.totalObservations with h | h | h
  · exact Or.inl (Or.inl h)
  · rcases strLe_total a.comName b.comName with hs | hs
    · exact Or.inl (Or.inr ⟨h, hs⟩)
    · exact Or.inr (Or.inr ⟨h.symm, hs⟩)
  · exact Or.inr (Or.inl h)

theorem updEntry_fst (sc : String) (r : ObsRec) (p : String × SpeciesGroup) :
    (updEntry sc r p).1 = p.1 := by
  unfold updEntry
  split <;> rfl

theorem updEntry_of_ne {sc : String} {r : ObsRec} {p : String × SpeciesGroup}
    (h : p.1 ≠ sc) : updEntry sc r p = p := by
  unfold updEntry
  rw [if_neg h]

theorem updEntry_of_eq {sc : String} {r : ObsRec} {p : String × SpeciesGroup}
    (h : p.1 = sc) :
    updEntry sc r p = (p.1, { p.2 with observations := p.2.observations ++ [r] }) := by
  unfold updEntry
  rw [if_pos h]

theorem addObs_keys (sc : String) (r : ObsRec) (data : List (String × SpeciesGroup)) :
    (addObs sc r data).map Prod.fst = data.map Prod.fst := by
  unfold addObs
  rw [List.map_map]
  apply List.map_congr_left
  intro p _
  exact updEntry_fst sc r p

theorem mem_addObs {q : String × SpeciesGroup} {sc : String} {r : ObsRec}
    {data : List (String × SpeciesGroup)} (hq : q ∈ addObs sc r data) :
    ∃ p ∈ data, q = updEntry sc r p := by
  obtain ⟨p, hp, h⟩ := List.mem_map.mp hq
  exact ⟨p, hp, h.symm⟩

theorem addObs_of_ne {sc : String} {r : ObsRec} {data : List (String × SpeciesGroup)}
    (hd : ∀ p ∈ data, p.1 ≠ sc) : addObs sc r data = data := by
  induction data with
  | nil => rfl
  | cons p t ih =>
    have h1 : updEntry sc r p = p := updEntry_of_ne (hd p (List.mem_cons_self p t))
    have h2 : ∀ q ∈ t, q.1 ≠ sc := fun q hq => hd q (List.mem_cons_of_mem p hq)
    simp only [addObs, List.map_cons, h1]
    exact congrArg _ (ih h2)

theorem step_of_seen {st : AggSt} {obs : RawObs}
    (h : (obs.speciesCode.getD "unknown", obs.subId.getD "") ∈ st.seen) :
    step st obs = st := by
  simp [step, h]

theorem step_of_not_seen {st : AggSt} {obs : RawObs}
    (h : (obs.speciesCode.getD "unknown", obs.subId.getD "") ∉ st.seen) :
    step st obs =
      { speciesData :=
          addObs (obs.speciesCode.getD "unknown") (mkRec obs (obs.subId.getD ""))
            (if st.speciesData.any (fun p => p.1 = obs.speciesCode.getD "unknown") then
              st.speciesData
             else
              st.speciesData ++
                [(obs.speciesCode.getD "unknown", newGroup obs (obs.speciesCode.getD "unknown"))])
        seen := (obs.speciesCode.getD "unknown", obs.subId.getD "") :: st.seen } := by
  simp [step, h]

theorem inv_step {st : AggSt} (h : Inv st) (obs : RawObs) : Inv (step st obs) := by
  by_cases hseen : (obs.speciesCode.getD "unknown", obs.subId.getD "") ∈ st.seen
  · rw [step_of_seen hseen]
    exact h
  · rw [step_of_not_seen hseen]
    by_cases hmem : st.speciesData.any (fun p => p.1 = obs.speciesCode.getD "unknown") = true
    · rw [if_pos hmem]
      refine ⟨?_, ?_, ?_, ?_, ?_, ?_⟩
      · rw [addObs_keys]
        exact h.keysNodup
      · intro q hq
        obtain ⟨p, hp, rfl⟩ := mem_addObs hq
        rcases eq_or_ne p.1 (obs.speciesCode.getD "unknown") with he | hne
        · rw [updEntry_of_eq he]
          exact h.codeEq p hp
        · rw [updEntry_of_ne hne]
          exact h.codeEq p hp
      · intro q hq
        obtain ⟨p, hp, rfl⟩ := mem_addObs hq
        rcases eq_or_ne p.1 (obs.speciesCode.getD "unknown") with he | hne
        · rw [updEntry_of_eq he]
          exact h.defaults p hp
        · rw [updEntry_of_ne hne]
          exact h.defaults p hp
      · intro q hq o ho
        obtain ⟨p, hp, rfl⟩ := mem_addObs hq
        rcases eq_or_ne p.1 (obs.speciesCode.getD "unknown") with he | hne
        · rw [updEntry_of_eq he] at ho ⊢
          simp only at ho
          rcases List.mem_append.mp ho with hold | hnew
          · exact List.mem_cons_of_mem _ (h.inSeen p hp o hold)
          · have : o = mkRec obs (obs.subId.getD "") := List.mem_singleton.mp hnew
            subst this
            simp only [mkRec, he]
            exact List.mem_cons_self _ _
        · rw [updEntry_of_ne hne] at ho ⊢
          exact List.mem_cons_of_mem _ (h.inSeen p hp o ho)
      · intro q hq
        obtain ⟨p, hp, rfl⟩ := mem_addObs hq
        rcases eq_or_ne p.1 (obs.speciesCode.getD "unknown") with he | hne
        · rw [updEntry_of_eq he]
          simp only [List.map_append]
          have hnotin : (obs.subId.getD "") ∉ p.2.observations.map (fun o => o.subId) := by
            intro hin
            obtain ⟨o, ho, hos⟩ := List.mem_map.mp hin
            have := h.inSeen p hp o ho
            rw [hos, he] at this
            exact hseen this
          simp only [mkRec, List.map_cons, List.map_nil]
          rw [List.nodup_append]
          exact ⟨h.subNodup p hp, List.nodup_singleton _,
            by simpa [List.disjoint_singleton] using hnotin⟩
        · rw [updEntry_of_ne hne]
          exact h.subNodup p hp
      · intro q hq
        obtain ⟨p, hp, rfl⟩ := mem_addObs hq
        rcases eq_or_ne p.1 (obs.speciesCode.getD "unknown") with he | hne
        · rw [updEntry_of_eq he]
          simp
        · rw [updEntry_of_ne hne]
          exact h.nonNil p hp
    · rw [if_neg hmem]
      have hknot : ∀ p ∈ st.speciesData, p.1 ≠ obs.speciesCode.getD "unknown" := by
        intro p hp he
        exact hmem (List.any_eq_true.mpr ⟨p, hp, by simpa using he⟩)
      have hrw : addObs (obs.speciesCode.getD "unknown") (mkRec obs (obs.subId.getD ""))
          (st.speciesData ++
            [(obs.speciesCode.getD "unknown", newGroup obs (obs.speciesCode.getD "unknown"))]) =
          st.speciesData ++
            [(obs.speciesCode.getD "unknown",
              { newGroup obs (obs.speciesCode.getD "unknown") with
                  observations := [mkRec obs (obs.subId.getD "")] })] := by
        unfold addObs
        rw [List.map_append]
        rw [show st.speciesData.map
              (updEntry (obs.speciesCode.getD "unknown") (mkRec obs (obs.subId.getD ""))) =
            st.speciesData from addObs_of_ne hknot]
        simp [updEntry, newGroup]
      rw [hrw]
      have hscnot : obs.speciesCode.getD "unknown" ∉ st.speciesData.map Prod.fst := by
        intro hin
        obtain ⟨p, hp, hps⟩ := List.mem_map.mp hin
        exact hknot p hp hps
      refine ⟨?_, ?_, ?_, ?_, ?_, ?_⟩
      · rw [List.map_append]
        simp only [List.map_cons, List.map_nil]
        rw [List.nodup_append]
        exact ⟨h.keysNodup, List.nodup_singleton _,
          by simpa [List.disjoint_singleton] using hscnot⟩
      · intro q hq
        rcases List.mem_append.mp hq with hold | hnew
        · exact h.codeEq q hold
        · have := List.mem_singleton.mp hnew
          subst this
          simp [newGroup]
      · intro q hq
        rcases List.mem_append.mp hq with hold | hnew
        · exact h.defaults q hold
        · have := List.mem_singleton.mp hnew
          subst this
          simp [newGroup]
      · intro q hq o ho
        rcases List.mem_append.mp hq with hold | hnew
        · exact List.mem_cons_of_mem _ (h.inSeen q hold o ho)
        · have := List.mem_singleton.mp hnew
          subst this
          simp only at ho
          have : o = mkRec obs (obs.subId.getD "") := List.mem_singleton.mp ho
          subst this
          simp only [mkRec]
          exact List.mem_cons_self _ _
      · intro q hq
        rcases List.mem_append.mp hq with hold | hnew
        · exact h.subNodup q hold
        · have := List.mem_singleton.mp hnew
          subst this
          simp
      · intro q hq
        rcases List.mem_append.mp hq with hold | hnew
        · exact h.nonNil q hold
        · have := List.mem_singleton.mp hnew
          subst this
          simp

theorem inv_foldl : ∀ (l : List RawObs) (st : AggSt), Inv st → Inv (l.foldl step st)
  | [], _, h => h
  | o :: t, st, h => inv_foldl t (step st o) (inv_step h o)

theorem inv_init : Inv { speciesData := [], seen := [] } := by
  refine ⟨?_, ?_, ?_, ?_, ?_, ?_⟩ <;> simp

theorem inv_process (l : List RawObs) :
    Inv (l.foldl step { speciesData := [], seen := [] }) :=
  inv_foldl l _ inv_init

instance : IsTrans SpeciesGroup leKey := by
  constructor
  intro a b c hab hbc
  rcases hab with h1 | ⟨h1, s1⟩
  · rcases hbc with h2 | ⟨h2, _⟩
    · exact Or.inl (Nat.lt_trans h1 h2)
    · exact Or.inl (h2 ▸ h1)
  · rcases hbc with h2 | ⟨h2, s2⟩
    · exact Or.inl (h1 ▸ h2)
    · exact Or.inr ⟨h1.trans h2, strLe_trans s1 s2⟩

/-! ## Lemmas about the output phases -/

theorem length_addRanks : ∀ (i : Nat) (l : List SpeciesGroup),
    (addRanks i l).length = l.length
  | _, [] => rfl
  | i, _ :: t => by simp [addRanks, length_addRanks (i + 1) t]

theorem mem_addRanks : ∀ {i : Nat} {l : List SpeciesGroup} {x : SpeciesGroup},
    x ∈ addRanks i l → ∃ g ∈ l, x = { g with rarityRank := x.rarityRank }
  | _, [], x, hx => by simp [addRanks] at hx
  | i, g :: t, x, hx => by
    rcases List.mem_cons.mp hx with he | ht
    · refine ⟨g, List.mem_cons_self g t, ?_⟩
      subst he
      rfl
    · obtain ⟨b, hb, he⟩ := mem_addRanks ht
      exact ⟨b, List.mem_cons_of_mem g hb, he⟩

theorem addRanks_map_rank : ∀ (i : Nat) (l : List SpeciesGroup),
    (addRanks i l).map (fun g => g.rarityRank) = List.range' (i + 1) l.length
  | _, [] => rfl
  | i, g :: t => by
    simp [addRanks, addRanks_map_rank (i + 1) t, List.range'_succ]

theorem addRanks_map_code : ∀ (i : Nat) (l : List SpeciesGroup),
    (addRanks i l).map (fun g => g.speciesCode) = l.map (fun g => g.speciesCode)
  | _, [] => rfl
  | i, g :: t => by
    simp [addRanks, addRanks_map_code (i + 1) t]

theorem leKey_rank_iff {g b : SpeciesGroup} {j k : Nat} :
    leKey { g with rarityRank := j } { b with rarityRank := k } ↔ leKey g b := by
  simp [leKey]

theorem pairwise_addRanks : ∀ (i : Nat) {l : List SpeciesGroup},
    l.Pairwise leKey → (addRanks i l).Pairwise leKey
  | _, [], _ => List.Pairwise.nil
  | i, g :: t, h => by
    simp only [addRanks]
    refine List.Pairwise.cons ?_ (pairwise_addRanks (i + 1) (List.pairwise_cons.mp h).2)
    intro x hx
    obtain ⟨b, hb, he⟩ := mem_addRanks hx
    rw [he]
    exact leKey_rank_iff.mpr ((List.pairwise_cons.mp h).1 b hb)

/-- `process_observations` with its let-bindings expanded. -/
theorem process_eq (l : List RawObs) :
    process_observations l =
      addRanks 0 (List.insertionSort leKey
        ((l.foldl step { speciesData := [], seen := [] }).speciesData.map
          (fun p => finishGroup p.2))) := rfl

/-- Properties of any group in the processed output, from the fold invariant. -/
theorem mem_process_props {l : List RawObs} {g : SpeciesGroup}
    (hg : g ∈ process_observations l) :
    List.Sorted leObsDt g.observations ∧
      g.totalObservations = g.observations.length ∧
      (g.observations.map (fun o => o.subId)).Nodup ∧
      g.observations ≠ [] ∧
      g.imageUrl = none := by
  rw [process_eq] at hg
  obtain ⟨b, hb, he⟩ := mem_addRanks hg
  rw [List.mem_insertionSort] at hb
  obtain ⟨p, hp, rfl⟩ := List.mem_map.mp hb
  have hinv := inv_process l
  have hsub := hinv.subNodup p hp
  have hnn := hinv.nonNil p hp
  have himg := (hinv.defaults p hp).2.2
  rw [he]
  refine ⟨?_, ?_, ?_, ?_, ?_⟩
  · simpa [finishGroup] using List.sorted_insertionSort leObsDt p.2.observations
  · simp [finishGroup]
  · have hperm : List.Perm
        ((List.insertionSort leObsDt p.2.observations).map (fun o => o.subId))
        (p.2.observations.map (fun o => o.subId)) :=
      (List.perm_insertionSort leObsDt p.2.observations).map (fun o => o.subId)
    simpa [finishGroup] using hperm.nodup_iff.mpr hsub
  · have hlen : (List.insertionSort leObsDt p.2.observations).length =
        p.2.observations.length := List.length_insertionSort leObsDt p.2.observations
    simp only [finishGroup]
    intro hnil
    apply hnn
    have : p.2.observations.length = 0 := by
      rw [← hlen]
      simpa using congrArg List.length hnil
    exact List.length_eq_zero.mp this
  · simp [finishGroup, himg]

/-- Species codes of the output groups are pairwise distinct (the dict keys). -/
theorem process_code_nodup (l : List RawObs) :
    ((process_observations l).map (fun g => g.speciesCode)).Nodup := by
  rw [process_eq, addRanks_map_code]
  have hinv := inv_process l
  have hmap : ((l.foldl step { speciesData := [], seen := [] }).speciesData.map
      (fun p => finishGroup p.2)).map (fun g => g.speciesCode) =
      (l.foldl step { speciesData := [], seen := [] }).speciesData.map Prod.fst := by
    rw [List.map_map]
    apply List.map_congr_left
    intro p hp
    simpa [finishGroup] using hinv.codeEq p hp
  have hperm := (List.perm_insertionSort leKey
    ((l.foldl step { speciesData := [], seen := [] }).speciesData.map
      (fun p => finishGroup p.2))).map (fun g => g.speciesCode)
  rw [hmap] at hperm
  exact hperm.nodup_iff.mpr hinv.keysNodup

/-! ## Lemmas about image enrichment -/

theorem attach_images_eq (f : String → Option String) (gs : List SpeciesGroup) :
    attach_images f gs = attachTop 30 f gs := rfl

theorem length_attachTop : ∀ (n : Nat) (f : String → Option String)
    (gs : List SpeciesGroup), (attachTop n f gs).length = gs.length
  | n, _, [] => by cases n <;> rfl
  | 0, _, _ :: _ => rfl
  | n + 1, f, g :: t => by
    simp only [attachTop, List.length_cons]
    rw [length_attachTop n f t]

theorem attachTop_get_lt : ∀ (n : Nat) (f : String → Option String)
    (gs : List SpeciesGroup) (i : Nat) (h : i < (attachTop n f gs).length)
    (h' : i < gs.length), i < n →
    (attachTop n f gs).get ⟨i, h⟩ =
      { gs.get ⟨i, h'⟩ with imageUrl := some (f (gs.get ⟨i, h'⟩).comName) }
  | 0, _, _, _, _, _, hi => absurd hi (Nat.not_lt_zero _)
  | _ + 1, _, [], _, _, h', _ => absurd h' (by simp)
  | _ + 1, _, _ :: _, 0, _, _, _ => rfl
  | n + 1, f, g :: t, i + 1, h, h', hi =>
    attachTop_get_lt n f t i (by simpa [attachTop] using h)
      (Nat.lt_of_succ_lt_succ h') (Nat.lt_of_succ_lt_succ hi)

theorem attachTop_get_ge : ∀ (n : Nat) (f : String → Option String)
    (gs : List SpeciesGroup) (i : Nat) (h : i < (attachTop n f gs).length)
    (h' : i < gs.length), n ≤ i →
    (attachTop n f gs).get ⟨i, h⟩ = gs.get ⟨i, h'⟩
  | _, _, [], _, _, h', _ => absurd h' (by simp)
  | 0, _, _ :: _, _, _, _, _ => rfl
  | _ + 1, _, _ :: _, 0, _, _, hi => absurd hi (by simp)
  | n + 1, f, g :: t, i + 1, h, h', hi =>
    attachTop_get_ge n f t i (by simpa [attachTop] using h)
      (Nat.lt_of_succ_lt_succ h') (Nat.le_of_succ_le_succ hi)

/-! ## Claim theorems -/

theorem process_sorted (l : List RawObs) :
    List.Sorted leKey (process_observations l) := by
  rw [process_eq]
  exact pairwise_addRanks 0 (List.sorted_insertionSort leKey _)

theorem process_ranks (l : List RawObs) :
    (process_observations l).map (fun g => g.rarityRank) =
      List.range' 1 (process_observations l).length := by
  rw [process_eq, addRanks_map_rank, length_addRanks]

/-- C1: for every input observation list, the sequence of species groups
returned by `process_observations` is sorted ascending by the pair
`(totalObservations, comName)`, and the `rarityRank` of each group equals its
1-based position in that order, so the ranks form the strictly increasing
sequence `1..N`. -/
theorem C1_output_sorted_and_ranked (l : List RawObs) :
    List.Sorted leKey (process_observations l) ∧
      (process_observations l).map (fun g => g.rarityRank) =
        List.range' 1 (process_observations l).length :=
  ⟨process_sorted l, process_ranks l⟩

/-- C2: `process_observations` retains at most one observation per
`(speciesCode, subId)` pair — within each output group the retained `subId`s
are pairwise distinct — and two raw observations with identical `speciesCode`
and `subId` yield exactly one species group with `totalObservations = 1`,
whose metadata comes from the first occurrence. -/
theorem C2_dedup_by_species_and_checklist :
    (∀ (l : List RawObs) (g : SpeciesGroup), g ∈ process_observations l →
        (g.observations.map (fun o => o.subId)).Nodup) ∧
      process_observations
          [sampleRaw "sp1" "First" "2024-01-01" "S100",
            sampleRaw "sp1" "Second" "2024-01-02" "S100"] =
        [{ comName := "First"
           sciName := "Sci"
           speciesCode := "sp1"
           observations := [{ locName := "Loc"
                              obsDt := "2024-01-01"
                              howMany := 1
                              lat := none
                              lng := none
                              subId := "S100"
                              userDisplayName := "User" }]
           totalObservations := 1
           rarityRank := 1
           imageUrl := none }] := by
  constructor
  · intro l g hg
    exact (mem_process_props hg).2.2.1
  · decide

theorem C2_dedup_by_species_and_checklist_witness :
    (({ comName := "A"
        sciName := "Sci"
        speciesCode := "a"
        observations := [{ locName := "Loc"
                           obsDt := "d"
                           howMany := 1
                           lat := none
                           lng := none
                           subId := "s"
                           userDisplayName := "User" }]
        totalObservations := 1
        rarityRank := 1
        imageUrl := none } : SpeciesGroup).observations.map (fun o => o.subId)).Nodup :=
  C2_dedup_by_species_and_checklist.1 [sampleRaw "a" "A" "d" "s"] _ (by decide)

/-- C3: within every species group of the output, the observations are
sorted non-increasing by the `obsDt` string (lexicographic), and
`totalObservations` equals the length of the observation list. -/
theorem C3_group_observations_sorted (l : List RawObs) (g : SpeciesGroup)
    (hg : g ∈ process_observations l) :
    List.Sorted (fun a b => strLe b.obsDt a.obsDt = true) g.observations ∧
      g.totalObservations = g.observations.length :=
  ⟨(mem_process_props hg).1, (mem_process_props hg).2.1⟩

theorem C3_group_observations_sorted_witness :
    List.Sorted (fun a b : ObsRec => strLe b.obsDt a.obsDt = true)
        (({ comName := "A"
            sciName := "Sci"
            speciesCode := "a"
            observations := [{ locName := "Loc"
                               obsDt := "d"
                               howMany := 1
                               lat := none
                               lng := none
                               subId := "s"
                               userDisplayName := "User" }]
            totalObservations := 1
            rarityRank := 1
            imageUrl := none } : SpeciesGroup).observations) ∧
      ({ comName := "A"
         sciName := "Sci"
         speciesCode := "a"
         observations := [{ locName := "Loc"
                            obsDt := "d"
                            howMany := 1
                            lat := none
                            lng := none
                            subId := "s"
                            userDisplayName := "User" }]
         totalObservations := 1
         rarityRank := 1
         imageUrl := none } : SpeciesGroup).totalObservations =
        ({ comName := "A"
           sciName := "Sci"
           speciesCode := "a"
           observations := [{ locName := "Loc"
                              obsDt := "d"
                              howMany := 1
                              lat := none
                              lng := none
                              subId := "s"
                              userDisplayName := "User" }]
           totalObservations := 1
           rarityRank := 1
           imageUrl := none } : SpeciesGroup).observations.length :=
  C3_group_observations_sorted [sampleRaw "a" "A" "d" "s"] _ (by decide)

/-- C9: every species group in the output is non-empty: its observation list
has at least one element and its `totalObservations` is at least 1. -/
theorem C9_groups_nonempty (l : List RawObs) (g : SpeciesGroup)
    (hg : g ∈ process_observations l) :
    g.observations ≠ [] ∧ 1 ≤ g.totalObservations := by
  obtain ⟨-, htot, -, hne, -⟩ := mem_process_props hg
  exact ⟨hne, htot ▸ List.length_pos_of_ne_nil hne⟩

theorem C9_groups_nonempty_witness :
    ({ comName := "A"
       sciName := "Sci"
       speciesCode := "a"
       observations := [{ locName := "Loc"
                          obsDt := "d"
                          howMany := 1
                          lat := none
                          lng := none
                          subId := "s"
                          userDisplayName := "User" }]
       totalObservations := 1
       rarityRank := 1
       imageUrl := none } : SpeciesGroup).observations ≠ [] ∧
      1 ≤ ({ comName := "A"
             sciName := "Sci"
             speciesCode := "a"
             observations := [{ locName := "Loc"
                                obsDt := "d"
                                howMany := 1
                                lat := none
                                lng := none
                                subId := "s"
                                userDisplayName := "User" }]
             totalObservations := 1
             rarityRank := 1
             imageUrl := none } : SpeciesGroup).totalObservations :=
  C9_groups_nonempty [sampleRaw "a" "A" "d" "s"] _ (by decide)

/-- C10: observations missing `subId` are deduplicated under the default key
`(speciesCode, "")`: each group retains at most one observation with an empty
`subId`, the output has at most one group per species code (so all
code-less observations collapse into the single "unknown" group), and two
genuinely distinct `subId`-less sightings of one species yield a single
retained observation. -/
theorem C10_missing_fields_collapse :
    (∀ (l : List RawObs) (g : SpeciesGroup), g ∈ process_observations l →
        (g.observations.map (fun o => o.subId)).count "" ≤ 1) ∧
      (∀ l : List RawObs,
        ((process_observations l).map (fun g => g.speciesCode)).Nodup) ∧
      process_observations
          [sampleRawNoSub "cc" "Bird" "2024-02-01" "Park A",
            sampleRawNoSub "cc" "Bird" "2024-02-02" "Park B"] =
        [{ comName := "Bird"
           sciName := "Sci"
           speciesCode := "cc"
           observations := [{ locName := "Park A"
                              obsDt := "2024-02-01"
                              howMany := 1
                              lat := none
                              lng := none
                              subId := ""
                              userDisplayName := "User" }]
           totalObservations := 1
           rarityRank := 1
           imageUrl := none }] := by
  refine ⟨?_, ?_, ?_⟩
  · intro l g hg
    exact List.nodup_iff_count_le_one.mp ((mem_process_props hg).2.2.1) ""
  · exact process_code_nodup
  · decide

theorem C10_missing_fields_collapse_witness :
    (({ comName := "A"
        sciName := "Sci"
        speciesCode := "a"
        observations := [{ locName := "Loc"
                           obsDt := "d"
                           howMany := 1
                           lat := none
                           lng := none
                           subId := "s"
                           userDisplayName := "User" }]
        totalObservations := 1
        rarityRank := 1
        imageUrl := none } : SpeciesGroup).observations.map (fun o => o.subId)).count "" ≤ 1 :=
  C10_missing_fields_collapse.1 [sampleRaw "a" "A" "d" "s"] _ (by decide)

/-- C5: only the first 30 species groups in rarity-rank order receive an
`imageUrl` field: each of the first 30 groups of the enriched output carries
an `imageUrl` field (present, possibly null), and every group from position
30 on has no image field populated. -/
theorem C5_images_only_top_30 (fetchImg : String → Option String)
    (l : List RawObs) (i : Nat)
    (h : i < (attach_images fetchImg (process_observations l)).length) :
    (i < 30 →
        ∃ v, ((attach_images fetchImg (process_observations l)).get ⟨i, h⟩).imageUrl =
          some v) ∧
      (30 ≤ i →
        ((attach_images fetchImg (process_observations l)).get ⟨i, h⟩).imageUrl = none) := by
  have h' : i < (process_observations l).length := by
    rwa [attach_images_eq, length_attachTop] at h
  constructor
  · intro hi
    refine ⟨fetchImg ((process_observations l).get ⟨i, h'⟩).comName, ?_⟩
    show ((attachTop 30 fetchImg (process_observations l)).get ⟨i, h⟩).imageUrl = _
    rw [attachTop_get_lt 30 fetchImg (process_observations l) i h h' hi]
  · intro hi
    show ((attachTop 30 fetchImg (process_observations l)).get ⟨i, h⟩).imageUrl = none
    rw [attachTop_get_ge 30 fetchImg (process_observations l) i h h' hi]
    exact (mem_process_props ((process_observations l).get_mem i h')).2.2.2.2

theorem C5_images_only_top_30_witness :
    (0 < 30 →
        ∃ v, ((attach_images (fun _ => none)
            (process_observations [sampleRaw "a" "A" "d" "s"])).get
          ⟨0, by decide⟩).imageUrl = some v) ∧
      (30 ≤ 0 →
        ((attach_images (fun _ => none)
            (process_observations [sampleRaw "a" "A" "d" "s"])).get
          ⟨0, by decide⟩).imageUrl = none) :=
  C5_images_only_top_30 (fun _ => none) [sampleRaw "a" "A" "d" "s"] 0 (by decide)

/-- C6: if the observation fetch fails, the error is propagated to the top
level unmodified and the snapshot file is untouched; a snapshot is produced
and written only on a successful fetch. -/
theorem C6_fetch_failure_atomic (fetchImg : String → Option String)
    (now : String) (prevFile : Option Snapshot) :
    (∀ e : String, run_main (.error e) fetchImg now prevFile = (.error e, prevFile)) ∧
      (∀ raw : List RawObs,
        ∃ snap : Snapshot, run_main (.ok raw) fetchImg now prevFile = (.ok snap, some snap)) :=
  ⟨fun _ => rfl, fun _ => ⟨_, rfl⟩⟩

/-- C7: `fetch_bird_image` returns the first thumbnail source found, trying
the cleaned name and then the cleaned name suffixed `" (bird)"`; it returns
`none` whenever a request raises or neither attempt finds a thumbnail, and
being a total function into `Option`, it never propagates a failure. -/
theorem C7_image_lookup_swallows_failures
    (query : String → Except Unit (List (Option String))) (bird_name : String) :
    (∀ u : String,
        fetch_bird_image query bird_name = some u ↔
          (∃ pages, query (clean_bird_name bird_name) = .ok pages ∧
              findThumb pages = some u) ∨
            (∃ pages pages2, query (clean_bird_name bird_name) = .ok pages ∧
              findThumb pages = none ∧
              query (clean_bird_name bird_name ++ " (bird)") = .ok pages2 ∧
              findThumb pages2 = some u)) ∧
      (∀ er, query (clean_bird_name bird_name) = .error er →
        fetch_bird_image query bird_name = none) ∧
      (∀ pages er, query (clean_bird_name bird_name) = .ok pages →
        findThumb pages = none →
        query (clean_bird_name bird_name ++ " (bird)") = .error er →
        fetch_bird_image query bird_name = none) ∧
      (∀ pages pages2, query (clean_bird_name bird_name) = .ok pages →
        findThumb pages = none →
        query (clean_bird_name bird_name ++ " (bird)") = .ok pages2 →
        findThumb pages2 = none →
        fetch_bird_image query bird_name = none) := by
  refine ⟨?_, ?_, ?_, ?_⟩
  · intro u
    constructor
    · intro hu
      rcases hq1 : query (clean_bird_name bird_name) with er | pages
      · simp [fetch_bird_image, fetchBody, hq1] at hu
      · rcases ht1 : findThumb pages with _ | v
        · rcases hq2 : query (clean_bird_name bird_name ++ " (bird)") with er | pages2
          · simp [fetch_bird_image, fetchBody, hq1, ht1, hq2] at hu
          · rcases ht2 : findThumb pages2 with _ | v2
            · simp [fetch_bird_image, fetchBody, hq1, ht1, hq2, ht2] at hu
            · have : v2 = u := by
                simpa [fetch_bird_image, fetchBody, hq1, ht1, hq2, ht2] using hu
              exact Or.inr ⟨pages, pages2, rfl, ht1, rfl, this ▸ ht2⟩
        · have : v = u := by
            simpa [fetch_bird_image, fetchBody, hq1, ht1] using hu
          exact Or.inl ⟨pages, rfl, this ▸ ht1⟩
    · rintro (⟨pages, hq1, ht1⟩ | ⟨pages, pages2, hq1, ht1, hq2, ht2⟩)
      · simp [fetch_bird_image, fetchBody, hq1, ht1]
      · simp [fetch_bird_image, fetchBody, hq1, ht1, hq2, ht2]
  · intro er hq1
    simp [fetch_bird_image, fetchBody, hq1]
  · intro pages er hq1 ht1 hq2
    simp [fetch_bird_image, fetchBody, hq1, ht1, hq2]
  · intro pages pages2 hq1 ht1 hq2 ht2
    simp [fetch_bird_image, fetchBody, hq1, ht1, hq2, ht2]

theorem C7_image_lookup_swallows_failures_witness :
    fetch_bird_image (fun _ => Except.error ()) "Mallard" = none :=
  (C7_image_lookup_swallows_failures (fun _ => Except.error ()) "Mallard").2.1 () rfl

/-! ## Lemmas about the name cleaner -/

theorem length_dropWhile_le' (p : Char → Bool) (m : List Char) :
    (m.dropWhile p).length ≤ m.length := by
  conv_rhs => rw [← List.takeWhile_append_dropWhile p m]
  rw [List.length_append]
  exact Nat.le_add_left _ _

/-- A successful match decomposes the input around the `(` and `)`. -/
theorem matchAt_some : ∀ {l r : List Char}, matchAt l = some r →
    ∃ a b c, l = a ++ '(' :: (b ++ ')' :: (c ++ r)) := by
  intro l r h
  unfold matchAt at h
  split at h
  · split at h
    · rename_i a1 r1 heq1 a2 r2 heq2
      refine ⟨l.takeWhile pySpace, r1.takeWhile notClose, r2.takeWhile pySpace, ?_⟩
      have h1 : l = l.takeWhile pySpace ++ ('(' :: r1) := by
        conv_lhs => rw [← List.takeWhile_append_dropWhile pySpace l]
        rw [heq1]
      have h2 : r1 = r1.takeWhile notClose ++ (')' :: r2) := by
        conv_lhs => rw [← List.takeWhile_append_dropWhile notClose r1]
        rw [heq2]
      have h3 : r2 = r2.takeWhile pySpace ++ r := by
        conv_lhs => rw [← List.takeWhile_append_dropWhile pySpace r2]
        rw [Option.some.injEq] at h
        rw [h]
      conv_lhs => rw [h1, h2, h3]
    · simp at h
  · simp at h

theorem matchAt_length {l r : List Char} (h : matchAt l = some r) :
    r.length + 2 ≤ l.length := by
  obtain ⟨a, b, c, he⟩ := matchAt_some h
  subst he
  simp [List.length_append]
  omega

/-- If the remainder of `dropWhile` starts anywhere, `)` membership gives the
head of the `[^)]*`-scan. -/
theorem dropWhile_notClose_of_mem : ∀ {t : List Char}, ')' ∈ t →
    ∃ r2, t.dropWhile notClose = ')' :: r2 := by
  intro t h
  induction t with
  | nil => cases h
  | cons c t ih =>
    by_cases hc : c = ')'
    · subst hc
      exact ⟨t, by simp [List.dropWhile_cons, notClose]⟩
    · have hm : ')' ∈ t := by
        rcases List.mem_cons.mp h with he | hm
        · exact absurd he.symm hc
        · exact hm
      obtain ⟨r2, hr⟩ := ih hm
      refine ⟨r2, ?_⟩
      rw [List.dropWhile_cons, if_pos (by simp [notClose, hc]), hr]

theorem matchAt_open {t : List Char} (h : ')' ∈ t) :
    ∃ r, matchAt ('(' :: t) = some r := by
  obtain ⟨r2, hr⟩ := dropWhile_notClose_of_mem h
  refine ⟨r2.dropWhile pySpace, ?_⟩
  have h1 : ('(' :: t).dropWhile pySpace = '(' :: t := by
    rw [List.dropWhile_cons, if_neg (by simp [pySpace])]
  unfold matchAt
  simp only [h1, hr]

/-- `goSub` introduces no `)` characters. -/
theorem goSub_mem_close : ∀ (n : Nat) (l : List Char), ')' ∈ goSub n l → ')' ∈ l := by
  intro n
  induction n with
  | zero =>
    intro l h
    cases l with
    | nil => simpa [goSub] using h
    | cons c t => simpa [goSub] using h
  | succ n ih =>
    intro l h
    cases l with
    | nil => simpa [goSub] using h
    | cons c t =>
      rcases hm : matchAt (c :: t) with _ | rest
      · rw [show goSub (n + 1) (c :: t) = c :: goSub n t from by rw [goSub, hm]] at h
        rcases List.mem_cons.mp h with he | hmem
        · exact he ▸ List.mem_cons_self c t
        · exact List.mem_cons_of_mem c (ih t hmem)
      · rw [show goSub (n + 1) (c :: t) = ' ' :: goSub n rest from by rw [goSub, hm]] at h
        rcases List.mem_cons.mp h with he | hmem
        · cases he
        · obtain ⟨a, b, cc, he⟩ := matchAt_some hm
          have : ')' ∈ rest := ih rest hmem
          rw [he]
          simp

/-- The scan output never has a `(` followed by a `)`. -/
theorem goSub_noPairs : ∀ (n : Nat) (l : List Char), l.length ≤ n →
    noPairs (goSub n l) = true := by
  intro n
  induction n with
  | zero =>
    intro l hl
    have : l = [] := List.length_eq_zero.mp (Nat.le_zero.mp hl)
    subst this
    rfl
  | succ n ih =>
    intro l hl
    cases l with
    | nil => rfl
    | cons c t =>
      rcases hm : matchAt (c :: t) with _ | rest
      · rw [show goSub (n + 1) (c :: t) = c :: goSub n t from by rw [goSub, hm]]
        have ht : noPairs (goSub n t) = true :=
          ih t (Nat.le_of_succ_le_succ (by simpa using hl))
        rw [noPairs]
        refine (Bool.and_eq_true _ _).mpr ⟨?_, ht⟩
        by_cases hc : c = '('
        · subst hc
          have hnot : ')' ∉ goSub n t := by
            intro hin
            have hint : ')' ∈ t := goSub_mem_close n t hin
            obtain ⟨r, hr⟩ := matchAt_open hint
            rw [hm] at hr
            cases hr
          simp [hnot]
        · simp [hc]
      · rw [show goSub (n + 1) (c :: t) = ' ' :: goSub n rest from by rw [goSub, hm]]
        have hlen : rest.length ≤ n := by
          have h2 := matchAt_length hm
          simp only [List.length_cons] at h2 hl
          omega
        rw [noPairs]
        refine (Bool.and_eq_true _ _).mpr ⟨?_, ih rest hlen⟩
        simp

theorem noPairs_subParens (l : List Char) : noPairs (subParens l) = true :=
  goSub_noPairs l.length l le_rfl

theorem noPairs_cons {c : Char} {t : List Char} (h : noPairs (c :: t) = true) :
    (c = '(' → ')' ∉ t) ∧ noPairs t = true := by
  rw [noPairs, Bool.and_eq_true] at h
  refine ⟨?_, h.2⟩
  intro hc hin
  have := h.1
  rw [hc] at this
  simp [hin] at this

theorem noPairs_append_right : ∀ {a b : List Char}, noPairs (a ++ b) = true →
    noPairs b = true := by
  intro a
  induction a with
  | nil => exact fun h => h
  | cons c t ih => exact fun h => ih (noPairs_cons h).2

theorem noPairs_append_left : ∀ {a b : List Char}, noPairs (a ++ b) = true →
    noPairs a = true := by
  intro a
  induction a with
  | nil => intro b _; rfl
  | cons c t ih =>
    intro b h
    rw [List.cons_append] at h
    have h2 := (noPairs_cons h).2
    rw [noPairs, Bool.and_eq_true]
    refine ⟨?_, ih h2⟩
    by_cases hc : c = '('
    · have hnot : ')' ∉ t ++ b := (noPairs_cons h).1 hc
      have : ')' ∉ t := fun hin => hnot (List.mem_append.mpr (Or.inl hin))
      simp [hc, this]
    · simp [hc]

theorem noPairs_no_open_close : ∀ {a b : List Char},
    noPairs (a ++ '(' :: b) = true → ')' ∉ b := by
  intro a
  induction a with
  | nil => exact fun h => (noPairs_cons h).1 rfl
  | cons c t ih => exact fun h => ih (noPairs_cons h).2

theorem matchAt_none_of_noPairs {l : List Char} (h : noPairs l = true) :
    matchAt l = none := by
  rcases hm : matchAt l with _ | r
  · rfl
  · obtain ⟨a, b, c, he⟩ := matchAt_some hm
    rw [he] at h
    have := noPairs_no_open_close h
    exact absurd (List.mem_append.mpr (Or.inr (List.mem_cons_self _ _))) this

theorem goSub_id_of_noPairs : ∀ (n : Nat) (l : List Char), l.length ≤ n →
    noPairs l = true → goSub n l = l := by
  intro n
  induction n with
  | zero =>
    intro l hl _
    have : l = [] := List.length_eq_zero.mp (Nat.le_zero.mp hl)
    subst this
    rfl
  | succ n ih =>
    intro l hl h
    cases l with
    | nil => rfl
    | cons c t =>
      rw [show goSub (n + 1) (c :: t) = c :: goSub n t from by
        rw [goSub, matchAt_none_of_noPairs h]]
      rw [ih t (Nat.le_of_succ_le_succ (by simpa using hl)) (noPairs_cons h).2]

theorem subParens_id_of_noPairs {l : List Char} (h : noPairs l = true) :
    subParens l = l :=
  goSub_id_of_noPairs l.length l le_rfl h

/-! Slices: `pyStrip` and `beforeFirst` return contiguous slices of their
input, so `noPairs` and the absence of a separator are inherited. -/

theorem pyStrip_slice (l : List Char) : ∃ a b, l = a ++ (pyStrip l ++ b) := by
  refine ⟨l.takeWhile pySpace,
    ((l.dropWhile pySpace).reverse.takeWhile pySpace).reverse, ?_⟩
  conv_lhs => rw [← List.takeWhile_append_dropWhile pySpace l]
  have : l.dropWhile pySpace = pyStrip l ++
      ((l.dropWhile pySpace).reverse.takeWhile pySpace).reverse := by
    conv_lhs => rw [← List.reverse_reverse (l.dropWhile pySpace)]
    conv_lhs =>
      rw [← List.takeWhile_append_dropWhile pySpace (l.dropWhile pySpace).reverse]
    rw [List.reverse_append]
    rfl
  conv_lhs => rw [this]

theorem noPairs_slice {a s b : List Char} (h : noPairs (a ++ (s ++ b)) = true) :
    noPairs s = true :=
  noPairs_append_left (noPairs_append_right h)

theorem noPairs_pyStrip {l : List Char} (h : noPairs l = true) :
    noPairs (pyStrip l) = true := by
  obtain ⟨a, b, he⟩ := pyStrip_slice l
  rw [he] at h
  exact noPairs_slice h

theorem beforeFirst_append (sep : List Char) :
    ∀ l : List Char, ∃ r, beforeFirst sep l ++ r = l := by
  intro l
  induction l with
  | nil => exact ⟨[], rfl⟩
  | cons c t ih =>
    by_cases hp : sep.isPrefixOf (c :: t) = true
    · exact ⟨c :: t, by simp [beforeFirst, hp]⟩
    · obtain ⟨r, hr⟩ := ih
      exact ⟨r, by simp [beforeFirst, hp, hr]⟩

theorem noPairs_beforeFirst {sep l : List Char} (h : noPairs l = true) :
    noPairs (beforeFirst sep l) = true := by
  obtain ⟨r, hr⟩ := beforeFirst_append sep l
  rw [← hr] at h
  exact noPairs_append_left h

theorem isPrefixOf_extend : ∀ (s p r : List Char), s.isPrefixOf p = true →
    s.isPrefixOf (p ++ r) = true := by
  intro s
  induction s with
  | nil =>
    intro p r _
    rcases hpr : p ++ r with _ | ⟨c, t⟩ <;> simp [List.isPrefixOf]
  | cons a s ih =>
    intro p r h
    cases p with
    | nil => simp [List.isPrefixOf] at h
    | cons b p =>
      rw [List.cons_append]
      rw [List.isPrefixOf] at h ⊢
      rw [Bool.and_eq_true] at h ⊢
      exact ⟨h.1, ih p r h.2⟩

theorem not_containsSub_beforeFirst (sep : List Char) (hne : sep ≠ []) :
    ∀ l : List Char, containsSub sep (beforeFirst sep l) = false := by
  intro l
  induction l with
  | nil => simpa [beforeFirst, containsSub] using hne
  | cons c t ih =>
    by_cases hp : sep.isPrefixOf (c :: t) = true
    · simpa [beforeFirst, hp, containsSub] using hne
    · rw [show beforeFirst sep (c :: t) = c :: beforeFirst sep t from by
        simp [beforeFirst, hp]]
      rw [containsSub]
      rw [Bool.or_eq_false_iff]
      refine ⟨?_, ih⟩
      by_contra hq
      rw [Bool.not_eq_false] at hq
      obtain ⟨r, hr⟩ := beforeFirst_append sep t
      have : sep.isPrefixOf (c :: t) = true := by
        rw [show c :: t = (c :: beforeFirst sep t) ++ r from by simp [hr]]
        exact isPrefixOf_extend sep (c :: beforeFirst sep t) r hq
      exact hp this

theorem containsSub_append_left (sep : List Char) :
    ∀ {s b : List Char}, containsSub sep s = true → containsSub sep (s ++ b) = true := by
  intro s
  induction s with
  | nil =>
    intro b h
    rw [containsSub] at h
    have : sep = [] := by simpa using h
    subst this
    cases b with
    | nil => rfl
    | cons c t => simp [containsSub, List.isPrefixOf]
  | cons c t ih =>
    intro b h
    rw [containsSub] at h
    rw [List.cons_append, containsSub]
    rcases Bool.or_eq_true_iff.mp h with h1 | h2
    · rw [show c :: (t ++ b) = (c :: t) ++ b from rfl]
      rw [isPrefixOf_extend sep (c :: t) b h1]
      rfl
    · rw [ih h2]
      simp

theorem containsSub_append_right (sep : List Char) :
    ∀ (a : List Char) {b : List Char}, containsSub sep b = true →
      containsSub sep (a ++ b) = true := by
  intro a
  induction a with
  | nil => exact fun h => h
  | cons c t ih =>
    intro b h
    rw [List.cons_append, containsSub, ih h]
    simp

theorem containsSub_slice {sep a s b : List Char} (h : containsSub sep s = true) :
    containsSub sep (a ++ (s ++ b)) = true :=
  containsSub_append_right sep a (containsSub_append_left sep h)

/-! Idempotence of `pyStrip`. -/

theorem dropWhile_idem (p : Char → Bool) (l : List Char) :
    (l.dropWhile p).dropWhile p = l.dropWhile p := by
  induction l with
  | nil => rfl
  | cons c t ih =>
    by_cases hc : p c = true
    · rw [List.dropWhile_cons, if_pos hc, ih]
    · rw [List.dropWhile_cons, if_neg hc, List.dropWhile_cons, if_neg hc]

theorem dropWhile_eq_self_of_append {p : Char → Bool} {x r z : List Char}
    (hz : z.dropWhile p = z) (he : x ++ r = z) : x.dropWhile p = x := by
  cases x with
  | nil => rfl
  | cons c t =>
    rw [List.dropWhile_cons]
    rw [if_neg ?hneg]
    case hneg =>
      intro hc
      rw [← he, List.cons_append, List.dropWhile_cons, if_pos hc] at hz
      have hle := length_dropWhile_le' p (t ++ r)
      have := congrArg List.length hz
      simp only [List.length_cons, List.length_append] at this hle
      omega

theorem pyStrip_idem (l : List Char) : pyStrip (pyStrip l) = pyStrip l := by
  have h1 : (l.dropWhile pySpace).dropWhile pySpace = l.dropWhile pySpace :=
    dropWhile_idem pySpace l
  have hpre : pyStrip l ++ ((l.dropWhile pySpace).reverse.takeWhile pySpace).reverse =
      l.dropWhile pySpace := by
    conv_rhs => rw [← List.reverse_reverse (l.dropWhile pySpace)]
    conv_rhs =>
      rw [← List.takeWhile_append_dropWhile pySpace (l.dropWhile pySpace).reverse]
    rw [List.reverse_append]
    rfl
  have h2 : (pyStrip l).dropWhile pySpace = pyStrip l :=
    dropWhile_eq_self_of_append h1 hpre
  have h3 : (pyStrip l).reverse.dropWhile pySpace = (pyStrip l).reverse := by
    rw [show (pyStrip l).reverse =
        (l.dropWhile pySpace).reverse.dropWhile pySpace from by
      rw [pyStrip, List.reverse_reverse]]
    exact dropWhile_idem pySpace (l.dropWhile pySpace).reverse
  rw [pyStrip, h2, h3, List.reverse_reverse]

/-! The cleaned name is a fixed point of every stage of the cleaner. -/

theorem clean_l_noPairs (l : List Char) :
    noPairs (clean_bird_name_l l) = true := by
  have ht : noPairs (pyStrip (subParens l)) = true :=
    noPairs_pyStrip (noPairs_subParens l)
  by_cases hc : containsSub sepX (pyStrip (subParens l)) = true
  · rw [show clean_bird_name_l l =
        pyStrip (beforeFirst sepX (pyStrip (subParens l))) from by
      simp [clean_bird_name_l, hc]]
    exact noPairs_pyStrip (noPairs_beforeFirst ht)
  · rw [show clean_bird_name_l l = pyStrip (subParens l) from by
      simp [clean_bird_name_l, hc]]
    exact ht

theorem clean_l_stripped (l : List Char) :
    pyStrip (clean_bird_name_l l) = clean_bird_name_l l := by
  by_cases hc : containsSub sepX (pyStrip (subParens l)) = true
  · rw [show clean_bird_name_l l =
        pyStrip (beforeFirst sepX (pyStrip (subParens l))) from by
      simp [clean_bird_name_l, hc]]
    exact pyStrip_idem _
  · rw [show clean_bird_name_l l = pyStrip (subParens l) from by
      simp [clean_bird_name_l, hc]]
    exact pyStrip_idem _

theorem clean_l_no_sep (l : List Char) :
    containsSub sepX (clean_bird_name_l l) = false := by
  by_cases hc : containsSub sepX (pyStrip (subParens l)) = true
  · rw [show clean_bird_name_l l =
        pyStrip (beforeFirst sepX (pyStrip (subParens l))) from by
      simp [clean_bird_name_l, hc]]
    by_contra hq
    rw [Bool.not_eq_false] at hq
    obtain ⟨a, b, he⟩ := pyStrip_slice (beforeFirst sepX (pyStrip (subParens l)))
    have : containsSub sepX (beforeFirst sepX (pyStrip (subParens l))) = true := by
      rw [he]
      exact containsSub_slice hq
    rw [not_containsSub_beforeFirst sepX (by simp [sepX]) _] at this
    cases this
  · rw [show clean_bird_name_l l = pyStrip (subParens l) from by
      simp [clean_bird_name_l, hc]]
    exact Bool.not_eq_true _ ▸ (by simpa using hc)

theorem clean_l_idem (l : List Char) :
    clean_bird_name_l (clean_bird_name_l l) = clean_bird_name_l l := by
  have h1 := clean_l_noPairs l
  have h2 := clean_l_stripped l
  have h3 := clean_l_no_sep l
  rw [show clean_bird_name_l (clean_bird_name_l l) =
      (if containsSub sepX (pyStrip (subParens (clean_bird_name_l l))) then
        pyStrip (beforeFirst sepX (pyStrip (subParens (clean_bird_name_l l))))
       else pyStrip (subParens (clean_bird_name_l l))) from rfl]
  rw [subParens_id_of_noPairs h1, h2, h3]
  simp

/-- C8: the name cleaner strips parenthesized qualifier segments and keeps
only the portion before the first `" x "` hybrid separator, and it is
idempotent: cleaning a cleaned name returns it unchanged. In particular
`"Ross's Goose (Blue Morph)"` maps to `"Ross's Goose"` and
`"Mallard x American Black Duck"` maps to `"Mallard"`. -/
theorem C8_clean_bird_name_idempotent :
    (∀ s : String, clean_bird_name (clean_bird_name s) = clean_bird_name s) ∧
      clean_bird_name "Ross\x27s Goose (Blue Morph)" = "Ross\x27s Goose" ∧
      clean_bird_name "Mallard x American Black Duck" = "Mallard" := by
  refine ⟨?_, by decide, by decide⟩
  intro s
  show String.mk (clean_bird_name_l (String.mk (clean_bird_name_l s.data)).data) = _
  rw [show (String.mk (clean_bird_name_l s.data)).data = clean_bird_name_l s.data from rfl]
  rw [clean_l_idem]
  rfl

/-! ## Idempotence of the Aggregator: re-feeding the deduplicated output -/

theorem toRaw_sc (g : SpeciesGroup) (o : ObsRec) :
    (toRaw g o).speciesCode.getD "unknown" = g.speciesCode := rfl

theorem toRaw_sid (g : SpeciesGroup) (o : ObsRec) :
    (toRaw g o).subId.getD "" = o.subId := rfl

theorem mkRec_toRaw (g : SpeciesGroup) (o : ObsRec) :
    mkRec (toRaw g o) o.subId = o := rfl

theorem newGroup_toRaw (g : SpeciesGroup) (o : ObsRec) :
    newGroup (toRaw g o) g.speciesCode =
      { comName := g.comName
        sciName := g.sciName
        speciesCode := g.speciesCode
        observations := [] } := rfl

/-- A `step` on a re-fed observation whose group entry is already the last
entry of the dict. -/
theorem step_toRaw_existing {D : List (String × SpeciesGroup)}
    {acc : SpeciesGroup} {seen : List (String × String)} (g : SpeciesGroup)
    (o : ObsRec) (hD : ∀ p ∈ D, p.1 ≠ g.speciesCode)
    (hseen : (g.speciesCode, o.subId) ∉ seen) :
    step { speciesData := D ++ [(g.speciesCode, acc)], seen := seen } (toRaw g o) =
      { speciesData :=
          D ++ [(g.speciesCode, { acc with observations := acc.observations ++ [o] })]
        seen := (g.speciesCode, o.subId) :: seen } := by
  rw [step_of_not_seen (by rw [toRaw_sc, toRaw_sid]; exact hseen)]
  rw [toRaw_sc, toRaw_sid, mkRec_toRaw]
  have hany : (D ++ [(g.speciesCode, acc)]).any (fun p => p.1 = g.speciesCode) = true := by
    rw [List.any_append]
    simp
  rw [if_pos hany]
  have hmap : addObs g.speciesCode o (D ++ [(g.speciesCode, acc)]) =
      D ++ [(g.speciesCode, { acc with observations := acc.observations ++ [o] })] := by
    unfold addObs
    rw [List.map_append]
    rw [show List.map (updEntry g.speciesCode o) D = D from addObs_of_ne hD]
    simp [updEntry]
  rw [hmap]

/-- A `step` on a re-fed observation of a species not yet in the dict. -/
theorem step_toRaw_new {D : List (String × SpeciesGroup)}
    {seen : List (String × String)} (g : SpeciesGroup) (o : ObsRec)
    (hD : ∀ p ∈ D, p.1 ≠ g.speciesCode)
    (hseen : (g.speciesCode, o.subId) ∉ seen) :
    step { speciesData := D, seen := seen } (toRaw g o) =
      { speciesData :=
          D ++ [(g.speciesCode,
            { comName := g.comName
              sciName := g.sciName
              speciesCode := g.speciesCode
              observations := [o] })]
        seen := (g.speciesCode, o.subId) :: seen } := by
  rw [step_of_not_seen (by rw [toRaw_sc, toRaw_sid]; exact hseen)]
  rw [toRaw_sc, toRaw_sid, mkRec_toRaw]
  have hany : D.any (fun p => p.1 = g.speciesCode) = false := by
    rw [List.any_eq_false]
    intro p hp
    simpa using hD p hp
  rw [if_neg (by rw [hany]; exact Bool.false_ne_true)]
  rw [newGroup_toRaw]
  have hmap : addObs g.speciesCode o
      (D ++ [(g.speciesCode,
        { comName := g.comName
          sciName := g.sciName
          speciesCode := g.speciesCode
          observations := [] })]) =
      D ++ [(g.speciesCode,
        { comName := g.comName
          sciName := g.sciName
          speciesCode := g.speciesCode
          observations := [o] })] := by
    unfold addObs
    rw [List.map_append]
    rw [show List.map (updEntry g.speciesCode o) D = D from addObs_of_ne hD]
    simp [updEntry]
  rw [hmap]

/-- Folding the re-fed observations of one group extends that group's entry
with exactly those observations, in order. -/
theorem foldl_toRaw_group :
    ∀ (recs : List ObsRec) (g : SpeciesGroup) (D : List (String × SpeciesGroup))
      (acc : SpeciesGroup) (seen : List (String × String)),
      (∀ p ∈ D, p.1 ≠ g.speciesCode) →
      (∀ o ∈ recs, (g.speciesCode, o.subId) ∉ seen) →
      ((recs.map (fun o => o.subId)).Nodup) →
      ∃ seen',
        List.foldl step { speciesData := D ++ [(g.speciesCode, acc)], seen := seen }
            (recs.map (toRaw g)) =
          { speciesData :=
              D ++ [(g.speciesCode, { acc with observations := acc.observations ++ recs })]
            seen := seen' } ∧
          ∀ q, q ∈ seen' ↔
            (q.1 = g.speciesCode ∧ q.2 ∈ recs.map (fun o => o.subId)) ∨ q ∈ seen := by
  intro recs
  induction recs with
  | nil =>
    intro g D acc seen hD hseen hnodup
    refine ⟨seen, ?_, ?_⟩
    · simp only [List.map_nil, List.foldl_nil]
      have : ({ acc with observations := acc.observations ++ [] } : SpeciesGroup) = acc := by
        cases acc
        simp
      rw [this]
    · intro q
      simp
  | cons o recs ih =>
    intro g D acc seen hD hseen hnodup
    rw [List.map_cons, List.foldl_cons]
    rw [step_toRaw_existing g o hD (hseen o (List.mem_cons_self o recs))]
    have hseen2 : ∀ o' ∈ recs, (g.speciesCode, o'.subId) ∉
        ((g.speciesCode, o.subId) :: seen) := by
      intro o' ho' hin
      rcases List.mem_cons.mp hin with he | hm
      · have : o'.subId = o.subId := by
          have := congrArg Prod.snd he
          simpa using this
        rw [List.map_cons, List.nodup_cons] at hnodup
        exact hnodup.1 (this ▸ List.mem_map_of_mem (fun o => o.subId) ho')
      · exact hseen o' (List.mem_cons_of_mem o ho') hm
    have hnodup2 : (recs.map (fun o => o.subId)).Nodup := by
      rw [List.map_cons, List.nodup_cons] at hnodup
      exact hnodup.2
    obtain ⟨seen', heq, hchar⟩ :=
      ih g D { acc with observations := acc.observations ++ [o] }
        ((g.speciesCode, o.subId) :: seen) hD hseen2 hnodup2
    refine ⟨seen', ?_, ?_⟩
    · rw [heq]
      have : ({ acc with observations := (acc.observations ++ [o]) ++ recs } :
          SpeciesGroup) = { acc with observations := acc.observations ++ o :: recs } := by
        cases acc
        simp
      rw [this]
    · intro q
      rw [hchar q]
      constructor
      · rintro (⟨h1, h2⟩ | hm)
        · exact Or.inl ⟨h1, by simp [h2]⟩
        · rcases List.mem_cons.mp hm with he | hm2
          · subst he
            exact Or.inl ⟨rfl, by simp⟩
          · exact Or.inr hm2
      · rintro (⟨h1, h2⟩ | hm)
        · rw [List.map_cons, List.mem_cons] at h2
          rcases h2 with he | hm2
          · refine Or.inr (List.mem_cons.mpr (Or.inl ?_))
            cases q
            simp_all
          · exact Or.inl ⟨h1, hm2⟩
        · exact Or.inr (List.mem_cons.mpr (Or.inr hm))

theorem flattenGroups_cons (g : SpeciesGroup) (gs : List SpeciesGroup) :
    flattenGroups (g :: gs) = g.observations.map (toRaw g) ++ flattenGroups gs := by
  simp [flattenGroups]

/-- Folding the whole re-fed output rebuilds the dict entry per entry. -/
theorem foldl_flatten :
    ∀ (gs : List SpeciesGroup) (D : List (String × SpeciesGroup))
      (seen : List (String × String)),
      ((gs.map (fun g => g.speciesCode)).Nodup) →
      (∀ g ∈ gs, ∀ p ∈ D, p.1 ≠ g.speciesCode) →
      (∀ g ∈ gs, ∀ o ∈ g.observations, (g.speciesCode, o.subId) ∉ seen) →
      (∀ g ∈ gs, (g.observations.map (fun o => o.subId)).Nodup) →
      (∀ g ∈ gs, g.observations ≠ []) →
      ∃ seen',
        List.foldl step { speciesData := D, seen := seen } (flattenGroups gs) =
          { speciesData := D ++ gs.map entryOf, seen := seen' } ∧
          ∀ q, q ∈ seen' ↔
            (∃ g ∈ gs, q.1 = g.speciesCode ∧ q.2 ∈ g.observations.map (fun o => o.subId)) ∨
              q ∈ seen := by
  intro gs
  induction gs with
  | nil =>
    intro D seen _ _ _ _ _
    refine ⟨seen, by simp [flattenGroups], by simp⟩
  | cons g gs ih =>
    intro D seen hkeys hD hseen hsub hne
    rw [flattenGroups_cons, List.foldl_append]
    rcases hobs : g.observations with _ | ⟨o, os⟩
    · exact absurd hobs (hne g (List.mem_cons_self g gs))
    · have hDg : ∀ p ∈ D, p.1 ≠ g.speciesCode :=
        fun p hp => hD g (List.mem_cons_self g gs) p hp
      have hseeng : ∀ o' ∈ g.observations, (g.speciesCode, o'.subId) ∉ seen :=
        hseen g (List.mem_cons_self g gs)
      have hsubg := hsub g (List.mem_cons_self g gs)
      rw [hobs] at hseeng hsubg
      rw [List.map_cons, List.foldl_cons]
      rw [step_toRaw_new g o hDg (hseeng o (List.mem_cons_self o os))]
      have hseen2 : ∀ o' ∈ os, (g.speciesCode, o'.subId) ∉
          ((g.speciesCode, o.subId) :: seen) := by
        intro o' ho' hin
        rcases List.mem_cons.mp hin with he | hm
        · have : o'.subId = o.subId := by
            have := congrArg Prod.snd he
            simpa using this
          rw [List.map_cons, List.nodup_cons] at hsubg
          exact hsubg.1 (this ▸ List.mem_map_of_mem (fun o => o.subId) ho')
        · exact hseeng o' (List.mem_cons_of_mem o ho') hm
      have hsub2 : (os.map (fun o => o.subId)).Nodup := by
        rw [List.map_cons, List.nodup_cons] at hsubg
        exact hsubg.2
      obtain ⟨seen1, heq1, hchar1⟩ :=
        foldl_toRaw_group os g D
          { comName := g.comName
            sciName := g.sciName
            speciesCode := g.speciesCode
            observations := [o] }
          ((g.speciesCode, o.subId) :: seen) hDg hseen2 hsub2
      rw [heq1]
      have hentry : (D ++ [(g.speciesCode,
          { comName := g.comName
            sciName := g.sciName
            speciesCode := g.speciesCode
            observations := [o] ++ os })]) = D ++ [entryOf g] := by
        rw [entryOf, hobs]
        rfl
      rw [show ({ comName := g.comName
                  sciName := g.sciName
                  speciesCode := g.speciesCode
                  observations := [o] } : SpeciesGroup) =
          { comName := g.comName
            sciName := g.sciName
            speciesCode := g.speciesCode
            observations := [o] } from rfl] at heq1
      have hkeys2 : (gs.map (fun g => g.speciesCode)).Nodup :=
        (List.nodup_cons.mp hkeys).2
      have hheadkey : g.speciesCode ∉ gs.map (fun g => g.speciesCode) :=
        (List.nodup_cons.mp hkeys).1
      have hD2 : ∀ g' ∈ gs, ∀ p ∈ D ++ [entryOf g], p.1 ≠ g'.speciesCode := by
        intro g' hg' p hp
        rcases List.mem_append.mp hp with hpD | hpE
        · exact hD g' (List.mem_cons_of_mem g hg') p hpD
        · have : p = entryOf g := List.mem_singleton.mp hpE
          subst this
          show g.speciesCode ≠ g'.speciesCode
          intro hcontra
          exact hheadkey (hcontra ▸ List.mem_map_of_mem (fun g => g.speciesCode) hg')
      have hseen3 : ∀ g' ∈ gs, ∀ o' ∈ g'.observations,
          (g'.speciesCode, o'.subId) ∉ seen1 := by
        intro g' hg' o' ho' hin
        rcases (hchar1 _).mp hin with ⟨h1, _⟩ | hm
        · simp only at h1
          apply hheadkey
          rw [← h1]
          exact List.mem_map_of_mem (fun g => g.speciesCode) hg'
        · rcases List.mem_cons.mp hm with he | hm2
          · have h1 := congrArg Prod.fst he
            simp only at h1
            apply hheadkey
            rw [← h1]
            exact List.mem_map_of_mem (fun g => g.speciesCode) hg'
          · exact hseen g' (List.mem_cons_of_mem g hg') o' ho' hm2
      have hsub3 : ∀ g' ∈ gs, (g'.observations.map (fun o => o.subId)).Nodup :=
        fun g' hg' => hsub g' (List.mem_cons_of_mem g hg')
      have hne3 : ∀ g' ∈ gs, g'.observations ≠ [] :=
        fun g' hg' => hne g' (List.mem_cons_of_mem g hg')
      obtain ⟨seen2, heq2, hchar2⟩ := ih (D ++ [entryOf g]) seen1 hkeys2 hD2 hseen3 hsub3 hne3
      rw [show (D ++ [(g.speciesCode,
          { comName := g.comName
            sciName := g.sciName
            speciesCode := g.speciesCode
            observations :=
              ({ comName := g.comName
                 sciName := g.sciName
                 speciesCode := g.speciesCode
                 observations := [o] } : SpeciesGroup).observations ++ os })]) =
          D ++ [entryOf g] from by
        rw [entryOf, hobs]
        rfl]
      rw [heq2]
      refine ⟨seen2, by rw [List.append_assoc]; rfl, ?_⟩
      intro q
      rw [hchar2 q]
      constructor
      · rintro (⟨g', hg', h1, h2⟩ | hm)
        · exact Or.inl ⟨g', List.mem_cons_of_mem g hg', h1, h2⟩
        · rcases (hchar1 q).mp hm with ⟨h1, h2⟩ | hm2
          · refine Or.inl ⟨g, List.mem_cons_self g gs, h1, ?_⟩
            rw [hobs, List.map_cons]
            exact List.mem_cons_of_mem _ h2
          · rcases List.mem_cons.mp hm2 with he | hm3
            · refine Or.inl ⟨g, List.mem_cons_self g gs, ?_, ?_⟩
              · exact congrArg Prod.fst he
              · rw [hobs, List.map_cons]
                have := congrArg Prod.snd he
                simp only at this
                exact this ▸ List.mem_cons_self _ _
            · exact Or.inr hm3
      · rintro (⟨g', hg', h1, h2⟩ | hm)
        · rcases List.mem_cons.mp hg' with he | hg2
          · subst he
            rw [hobs, List.map_cons, List.mem_cons] at h2
            rcases h2 with he2 | hm2
            · refine Or.inr ((hchar1 q).mpr (Or.inr (List.mem_cons.mpr (Or.inl ?_))))
              cases q
              simp_all
            · exact Or.inr ((hchar1 q).mpr (Or.inl ⟨h1, hm2⟩))
          · exact Or.inl ⟨g', hg2, h1, h2⟩
        · exact Or.inr ((hchar1 q).mpr (Or.inr (List.mem_cons_of_mem _ hm)))

/-- Reassigning ranks to a rank-erased copy restores the original list when
the original ranks were the positions. -/
theorem addRanks_restore : ∀ (i : Nat) (gs : List SpeciesGroup),
    gs.map (fun g => g.rarityRank) = List.range' (i + 1) gs.length →
    addRanks i (gs.map (fun g => { g with rarityRank := 0 })) = gs := by
  intro i gs
  induction gs generalizing i with
  | nil => intro _; rfl
  | cons g t ih =>
    intro h
    rw [List.length_cons, List.range'_succ, List.map_cons, List.cons.injEq] at h
    rw [List.map_cons]
    rw [show addRanks i ({ g with rarityRank := 0 } ::
        t.map (fun g => { g with rarityRank := 0 })) =
      { g with rarityRank := i + 1 } ::
        addRanks (i + 1) (t.map (fun g => { g with rarityRank := 0 })) from rfl]
    rw [ih (i + 1) h.2]
    rw [show ({ g with rarityRank := i + 1 } : SpeciesGroup) = g from by
      rw [← h.1]]

/-- Re-running the Aggregator over the flattened output of a well-formed
group list reproduces it exactly. -/
theorem process_flatten_eq (gs : List SpeciesGroup)
    (hkeys : (gs.map (fun g => g.speciesCode)).Nodup)
    (hsorted : ∀ g ∈ gs, List.Sorted leObsDt g.observations)
    (hsub : ∀ g ∈ gs, (g.observations.map (fun o => o.subId)).Nodup)
    (hne : ∀ g ∈ gs, g.observations ≠ [])
    (htot : ∀ g ∈ gs, g.totalObservations = g.observations.length)
    (himg : ∀ g ∈ gs, g.imageUrl = none)
    (hS : List.Sorted leKey gs)
    (hrank : gs.map (fun g => g.rarityRank) = List.range' 1 gs.length) :
    process_observations (flattenGroups gs) = gs := by
  obtain ⟨seen', heq, -⟩ :=
    foldl_flatten gs [] [] hkeys (by simp) (by simp) hsub hne
  rw [process_eq, heq]
  simp only [List.nil_append, List.map_map]
  have hfin : gs.map ((fun p => finishGroup p.2) ∘ entryOf) =
      gs.map (fun g => { g with rarityRank := 0 }) := by
    apply List.map_congr_left
    intro g hg
    have hins := (hsorted g hg).insertionSort_eq
    have h1 := htot g hg
    have h2 := himg g hg
    show finishGroup (entryOf g).2 = _
    rw [show (entryOf g).2 =
      { comName := g.comName
        sciName := g.sciName
        speciesCode := g.speciesCode
        observations := g.observations } from rfl]
    obtain ⟨cn, sn, sc, obs, tot, rank, img⟩ := g
    simp only at hins h1 h2 ⊢
    simp [finishGroup, hins, h1, h2]
  rw [hfin]
  have hsort2 : List.Sorted leKey (gs.map (fun g => { g with rarityRank := 0 })) :=
    List.pairwise_map.mpr (hS.imp (fun h => leKey_rank_iff.mpr h))
  rw [hsort2.insertionSort_eq]
  exact addRanks_restore 0 gs (by simpa using hrank)

/-- C4: deduplication in the Aggregator is idempotent — re-running
`process_observations` over the retained observations of its own output
(each carrying its group's species metadata) yields the same sequence of
species groups. -/
theorem C4_aggregator_idempotent (l : List RawObs) :
    process_observations (flattenGroups (process_observations l)) =
      process_observations l := by
  apply process_flatten_eq
  · exact process_code_nodup l
  · exact fun g hg => (mem_process_props hg).1
  · exact fun g hg => (mem_process_props hg).2.2.1
  · exact fun g hg => (mem_process_props hg).2.2.2.1
  · exact fun g hg => (mem_process_props hg).2.1
  · exact fun g hg => (mem_process_props hg).2.2.2.2
  · exact process_sorted l
  · exact process_ranks l

end Scrape
